import Mathlib

/-!
Verification of the path/name derivation and esbuild-invocation assembly of
the `projen-bundle-lambda-function-code` component library.

The development shallowly embeds:
* the Node.js `path` (posix) primitives the source uses (`join`, `dirname`,
  `basename`, `extname`, the separator constant `sep = '/'`），
* `renderBundleName` and `convertToPosixPath` from `src/utils.ts`,
* `Bundler.addBundle` from `src/bundler.ts` (assembly of the esbuild
  command-line token list and output locations),
* the `LambdaFunctionCodeBundle` constructor from `src/lambda-function-code.ts`
  (validation, base-path/construct-file/construct-name derivation).

Strings are modelled by Lean `String`/`List Char`; the platform path
separator is `'/'` (the posix platform the project is developed and built on),
except for `convertToPosixPath`, which is parametrised by the separator
character as the claim about it quantifies over platforms.
-/

/-! ### Node posix path model -/

/-- One step of Node's `normalizeString` segment resolution: skips empty and
`"."` segments, resolves `".."` against the accumulated stack (popping a
previous real segment, or — for relative paths, `allowUp` — accumulating a
leading `".."`).  The stack holds the resolved segments in reverse order. -/
def normStep (allowUp : Bool) (stack : List (List Char)) (seg : List Char) :
    List (List Char) :=
  if seg = [] ∨ seg = ['.'] then stack
  else if seg = ['.', '.'] then
    match stack with
    | [] => if allowUp then [['.', '.']] else []
    | top :: rest =>
      if top = ['.', '.'] then
        (if allowUp then ['.', '.'] :: top :: rest else top :: rest)
      else rest
  else seg :: stack

/-- Resolved segment list of Node's `normalizeString`. -/
def normalizeSegs (allowUp : Bool) (segs : List (List Char)) :
    List (List Char) :=
  (segs.foldl (normStep allowUp) []).reverse

/-- Join path segments with `'/'`. -/
def joinSegsChar (segs : List (List Char)) : List Char :=
  List.intercalate ['/'] segs

/-- Whether the path is absolute (`path.charCodeAt(0) === '/'`). -/
def isAbsChars (cs : List Char) : Bool := cs.head? == some '/'

/-- Whether the path has a trailing separator. -/
def hasTrailingSlash (cs : List Char) : Bool := cs.getLast? == some '/'

/-- Node `path.posix.normalize` on the character list of a path string. -/
def normalizeChars (cs : List Char) : List Char :=
  if cs = [] then ['.']
  else
    let body := joinSegsChar (normalizeSegs (!isAbsChars cs) (cs.splitOn '/'))
    if body = [] then
      if isAbsChars cs then ['/']
      else if hasTrailingSlash cs then ['.', '/'] else ['.']
    else
      (if isAbsChars cs then '/' :: body else body)
        ++ (if hasTrailingSlash cs then ['/'] else [])

/-- Node `path.posix.join` with a single argument: `"."` for the empty string,
otherwise normalization. -/
def joinChars1 (a : List Char) : List Char :=
  if a = [] then ['.'] else normalizeChars a

/-- Node `path.posix.join` with two arguments: empty arguments are skipped,
the rest are concatenated with `'/'` and normalized. -/
def joinChars2 (a b : List Char) : List Char :=
  if a = [] ∧ b = [] then ['.']
  else if a = [] then normalizeChars b
  else if b = [] then normalizeChars a
  else normalizeChars (a ++ '/' :: b)

/-- Node `path.posix.dirname`: everything before the last separator that is
followed by a non-separator run, ignoring trailing separators; `"."` (or the
root for rooted paths) when there is no such separator above index 0. -/
def dirnameChars (cs : List Char) : List Char :=
  if cs = [] then ['.']
  else
    let hasRoot := cs.head? = some '/'
    let t := (cs.reverse.dropWhile (fun c => c == '/')).dropWhile
      (fun c => !(c == '/'))
    if t.length ≤ 1 then (if hasRoot then ['/'] else ['.'])
    else if hasRoot ∧ t.length = 2 then ['/', '/']
    else (t.drop 1).reverse

/-- Node `path.posix.basename` (without a suffix argument): the final
non-separator run, ignoring trailing separators. -/
def basenameChars (cs : List Char) : List Char :=
  ((cs.reverse.dropWhile (fun c => c == '/')).takeWhile
    (fun c => !(c == '/'))).reverse

/-- Node `path.posix.basename(path, suffix)`: the basename, with `suffix`
removed when it is a proper suffix of (and not equal to) the basename and not
longer than the whole path. -/
def basenameExtChars (cs ext : List Char) : List Char :=
  let b := basenameChars cs
  if ext ≠ [] ∧ ext.length ≤ cs.length ∧ ext.isSuffixOf b ∧ b ≠ ext then
    b.take (b.length - ext.length)
  else b

/-- Node `path.posix.extname`: the final component's suffix starting at its
last dot, empty when the component has no dot, when its only dot is the
leading character, or when the component is exactly `".."`. -/
def extnameChars (cs : List Char) : List Char :=
  let comp := (cs.reverse.dropWhile (fun c => c == '/')).takeWhile
    (fun c => !(c == '/'))
  let afterDot := comp.takeWhile (fun c => !(c == '.'))
  if afterDot.length = comp.length then []
  else
    let k := comp.length - afterDot.length - 1
    if k = 0 then []
    else if comp = ['.', '.'] then []
    else (comp.take (afterDot.length + 1)).reverse

/-- `path.posix.join` on strings (two arguments), as used by `addBundle` and
the `LambdaFunctionCodeBundle` constructor. -/
def posixJoin (a b : String) : String := ⟨joinChars2 a.toList b.toList⟩

/-- `path.dirname` on strings (posix platform). -/
def dirnameStr (p : String) : String := ⟨dirnameChars p.toList⟩

/-- `path.basename` on strings (posix platform). -/
def basenameStr (p : String) : String := ⟨basenameChars p.toList⟩

/-- `path.basename(p, ext)` on strings (posix platform). -/
def basenameExtStr (p ext : String) : String :=
  ⟨basenameExtChars p.toList ext.toList⟩

/-- `path.extname` on strings (posix platform). -/
def extnameStr (p : String) : String := ⟨extnameChars p.toList⟩

/-- JavaScript `String.prototype.endsWith`: the suffix test used by the
`LambdaFunctionCodeBundle` constructor's entrypoint validation. -/
def jsEndsWith (s suffix : String) : Bool :=
  suffix.toList.isSuffixOf s.toList

/-! ### `src/utils.ts` -/

/-- The segment list `parts` of `renderBundleName`: the normalized entrypoint
(`join(entrypoint)`) split at the platform separator, with a leading `"src"`
segment shifted off. -/
def renderBundleParts (entrypoint : String) : List (List Char) :=
  let parts := (joinChars1 entrypoint.toList).splitOn '/'
  if parts.head? = some "src".toList then parts.tail else parts

/-- The final steps of `renderBundleName` on the rejoined path `p`:
`join(dirname(p), basename(p, extname(p)))`. -/
def renderBundleCore (p : List Char) : List Char :=
  joinChars2 (dirnameChars p) (basenameExtChars p (extnameChars p))

/-- `renderBundleName` from `src/utils.ts`:
normalize the entrypoint (`join(entrypoint)`), split it at the platform
separator, drop a leading `"src"` segment, rejoin, and rejoin the directory
with the extension-stripped base name. -/
def renderBundleName (entrypoint : String) : String :=
  ⟨renderBundleCore (joinSegsChar (renderBundleParts entrypoint))⟩

/-- `convertToPosixPath` from `src/utils.ts` / `src/internal.ts`:
`p.split(sep).join(posix.sep)`, parametrised by the platform separator
character `sep`. -/
def convertToPosixPath (sep : Char) (p : String) : String :=
  ⟨List.intercalate ['/'] (p.toList.splitOn sep)⟩

/-! ### `src/bundler.ts` -/

/-- `BundlingOptions` from `src/bundler.ts`; `none` models an omitted
(`undefined`) field.  A loader map is an insertion-ordered list of
`(extension, loader)` entries, as `Object.entries` enumerates it. -/
structure BundlingOptions where
  externals : Option (List String) := none
  sourcemap : Option Bool := none
  target : Option String := none
  platform : Option String := none
  outfile : Option String := none
  tsconfigPath : Option String := none
  loaders : Option (List (String × String)) := none
  format : Option String := none
  minify : Option Bool := none
  sourcesContent : Option Bool := none
  mainFields : Option String := none
  banner : Option String := none

/-- The built-in default banner of `addBundle` (an ESM interop shim). -/
def defaultBanner : String :=
  ":js=import \x7b createRequire as topLevelCreateRequire \x7d from \x27module\x27;const require = topLevelCreateRequire(import.meta.url)"

/-- JavaScript string rendering of a boolean (template-literal semantics). -/
def boolStr (b : Bool) : String := if b then "true" else "false"

/-- The first six tokens pushed by `addBundle`. -/
def baseArgs (entrypoint target platform outfile : String) : List String :=
  ["esbuild", "--bundle", entrypoint,
   "--target=\"" ++ target ++ "\"",
   "--platform=\"" ++ platform ++ "\"",
   "--outfile=\"" ++ outfile ++ "\""]

/-- `const tsconfig = options.tsconfigPath ?? false; if (tsconfig) ...`:
the tsconfig token appears only for a defined, non-empty (truthy) path. -/
def tsconfigArgs (tsconfigPath : Option String) : List String :=
  match tsconfigPath with
  | some t => if t = "" then [] else ["--tsconfig=\"" ++ t ++ "\""]
  | none => []

/-- One `--external:` token per external, in the supplied order. -/
def externalArgs (externals : List String) : List String :=
  externals.map (fun x => "--external:" ++ x)

/-- `if (sourcemap) args.push("--sourcemap")`. -/
def sourcemapArgs (sourcemap : Bool) : List String :=
  if sourcemap then ["--sourcemap"] else []

/-- `if (sourcesContent) args.push(s)` with `s` carrying the boolean's
rendering — so the token is pushed only when the resolved value is `true`. -/
def sourcesContentArgs (sourcesContent : Bool) : List String :=
  if sourcesContent then ["--sources-content=" ++ boolStr sourcesContent]
  else []

/-- `if (minify) args.push("--minify")`. -/
def minifyArgs (minify : Bool) : List String :=
  if minify then ["--minify"] else []

/-- `if (format) args.push(...)`: pushed only for a truthy (non-empty)
resolved format. -/
def formatArgs (format : String) : List String :=
  if format = "" then [] else ["--format=" ++ format]

/-- `if (mainFields) args.push(...)`: pushed only when non-empty. -/
def mainFieldsArgs (mainFields : String) : List String :=
  if mainFields = "" then [] else ["--main-fields=" ++ mainFields]

/-- `if (banner) args.push("--banner" + banner)`: flag and value are
concatenated with no separator; pushed only when non-empty. -/
def bannerArgs (banner : String) : List String :=
  if banner = "" then [] else ["--banner" ++ banner]

/-- Loader tokens: one `--loader:.ext=loader` token per entry of the resolved
loader map (`none` means neither level supplied a map). -/
def loaderArgs (loaders : Option (List (String × String))) : List String :=
  match loaders with
  | some ls => ls.map (fun el => "--loader:." ++ el.1 ++ "=" ++ el.2)
  | none => []

/-- The `Bundle` value returned by `addBundle`, together with the created
task's name and exec string. -/
structure Bundle where
  bundleTaskName : String
  exec : String
  args : List String
  outdir : String
  outfile : String

/-- `Bundler.addBundle` from `src/bundler.ts`.
`componentLoaders` is the `Bundler` component's own `loaders` option and
`bundledir` its assets directory (`options.assetsDir ?? "assets"`).
Resolution mirrors the source: `??` replaces only `undefined` fields, the
loader ternary `(options.loaders ?? false) ? options.loaders : (this.loaders
?? false)` lets an invocation-level map replace the component map wholesale,
and the tokens are pushed in source order. -/
def addBundle (componentLoaders : Option (List (String × String)))
    (bundledir : String) (entrypoint : String) (options : BundlingOptions) :
    Bundle :=
  let name := renderBundleName entrypoint
  let outdir := posixJoin bundledir name
  let outfile := posixJoin outdir (options.outfile.getD "index.mjs")
  let target := options.target.getD "esnext"
  let platform := options.platform.getD "node"
  let format := options.format.getD "esm"
  let sourcemap := options.sourcemap.getD true
  let sourcesContent := options.sourcesContent.getD false
  let minify := options.minify.getD true
  let mainFields := options.mainFields.getD "module,main"
  let banner := options.banner.getD defaultBanner
  let loaders := options.loaders <|> componentLoaders
  let args := baseArgs entrypoint target platform outfile
    ++ tsconfigArgs options.tsconfigPath
    ++ externalArgs (options.externals.getD [])
    ++ sourcemapArgs sourcemap
    ++ sourcesContentArgs sourcesContent
    ++ minifyArgs minify
    ++ formatArgs format
    ++ mainFieldsArgs mainFields
    ++ bannerArgs banner
    ++ loaderArgs loaders
  { bundleTaskName := "bundle:" ++ name
    exec := String.intercalate " " args
    args := args
    outdir := outdir
    outfile := outfile }

/-- The `Bundler` constructor's assets-directory resolution:
`options.assetsDir ?? "assets"`. -/
def bundlerBundledir (assetsDir : Option String) : String :=
  assetsDir.getD "assets"

/-! ### `src/lambda-function-code.ts` -/

/-- Options of the `LambdaFunctionCodeBundle` constructor. -/
structure CodeBundleOptions where
  entrypoint : String
  extension : String
  constructFile : Option String := none
  constructName : Option String := none
  bundlingOptions : Option BundlingOptions := none

/-- Modelled from the spec: the PascalCase conversion supplied by the external
`case` package's `pascal` (a third-party dependency whose source is not part
of this repository).  Following the spec's description, the input is split
into words at non-alphanumeric separators and each word is written with an
upper-case initial and lower-case remainder. -/
def pascal (s : String) : String :=
  ⟨(((s.toList.splitOnP (fun c => !c.isAlphanum)).filter
      (fun w => w ≠ [])).map
    (fun w => match w with
      | [] => []
      | c :: rest => c.toUpper :: rest.map Char.toLower)).flatten⟩

/-- The base path derived by the constructor:
`path.posix.join(path.dirname(entrypoint), path.basename(entrypoint,
extension))`. -/
def derivedBasePath (entrypoint extension : String) : String :=
  posixJoin (dirnameStr entrypoint) (basenameExtStr entrypoint extension)

/-- The construct file name after defaulting:
`options.constructFile ?? basePath + "-code.ts"`. -/
def resolvedConstructFile (options : CodeBundleOptions) : String :=
  options.constructFile.getD
    (derivedBasePath options.entrypoint options.extension ++ "-code.ts")

/-- The data computed by a successful `LambdaFunctionCodeBundle`
construction. -/
structure CodeBundleResult where
  basePath : String
  constructFile : String
  constructName : String
  bundle : Bundle

/-- The `LambdaFunctionCodeBundle` constructor from
`src/lambda-function-code.ts`.  `bundlerPresent` models whether
`Bundler.of(project)` finds a `Bundler` component; `componentLoaders` and
`bundledir` are that bundler's state; `tsconfigDevFileName` models
`(project as TypeScriptProject)?.tsconfigDev?.fileName`, which the spread
`{ ...options.bundlingOptions, tsconfigPath: ... }` always writes over the
invocation options.  The three `throw new Error(...)` sites become
`Except.error`. -/
def lambdaFunctionCodeBundle (bundlerPresent : Bool)
    (componentLoaders : Option (List (String × String))) (bundledir : String)
    (tsconfigDevFileName : Option String) (options : CodeBundleOptions) :
    Except String CodeBundleResult :=
  if !bundlerPresent then
    Except.error "No bundler found. Please add a Bundler component to your project."
  else
    let entrypoint := options.entrypoint
    let extension := options.extension
    if !(jsEndsWith entrypoint extension) then
      Except.error (entrypoint ++ " must have a " ++ extension ++ " extension")
    else
      let basePath := derivedBasePath entrypoint extension
      let constructFile := resolvedConstructFile options
      if extnameStr constructFile ≠ ".ts" then
        Except.error ("Construct file name \"" ++ constructFile
          ++ "\" must have a .ts extension")
      else
        let constructName := options.constructName.getD
          (pascal (basenameStr basePath) ++ "FunctionCode")
        let bundle := addBundle componentLoaders bundledir entrypoint
          { options.bundlingOptions.getD {} with
              tsconfigPath := tsconfigDevFileName }
        Except.ok
          { basePath := basePath
            constructFile := constructFile
            constructName := constructName
            bundle := bundle }

/-- A plain path segment: nonempty, not `"."` or `".."`, and free of the
separator.  Paths made of such segments are untouched by normalization. -/
def CleanSeg (s : List Char) : Prop :=
  s ≠ [] ∧ s ≠ ['.'] ∧ s ≠ ['.', '.'] ∧ '/' ∉ s

instance (s : List Char) : Decidable (CleanSeg s) :=
  inferInstanceAs
    (Decidable (s ≠ [] ∧ s ≠ ['.'] ∧ s ≠ ['.', '.'] ∧ '/' ∉ s))

/-! ### General helper lemmas -/

theorem addBundle_args_eq (cl : Option (List (String × String)))
    (bd ep : String) (opts : BundlingOptions) :
    (addBundle cl bd ep opts).args
      = baseArgs ep (opts.target.getD "esnext") (opts.platform.getD "node")
          (addBundle cl bd ep opts).outfile
        ++ tsconfigArgs opts.tsconfigPath
        ++ externalArgs (opts.externals.getD [])
        ++ sourcemapArgs (opts.sourcemap.getD true)
        ++ sourcesContentArgs (opts.sourcesContent.getD false)
        ++ minifyArgs (opts.minify.getD true)
        ++ formatArgs (opts.format.getD "esm")
        ++ mainFieldsArgs (opts.mainFields.getD "module,main")
        ++ bannerArgs (opts.banner.getD defaultBanner)
        ++ loaderArgs (opts.loaders <|> cl) := rfl

theorem addBundle_outfile_eq (cl : Option (List (String × String)))
    (bd ep : String) (opts : BundlingOptions) :
    (addBundle cl bd ep opts).outfile
      = posixJoin (posixJoin bd (renderBundleName ep))
          (opts.outfile.getD "index.mjs") := rfl

theorem splitOnP_forall_not {α : Type} (p : α → Bool) (xs : List α) :
    ∀ l ∈ xs.splitOnP p, ∀ c ∈ l, ¬ p c = true := by
  induction xs with
  | nil =>
    intro l hl c hc
    rw [List.splitOnP_nil] at hl
    rcases List.mem_singleton.mp hl with h
    subst h
    cases hc
  | cons x xs ih =>
    intro l hl c hc
    rw [List.splitOnP_cons] at hl
    by_cases hx : p x
    · rw [if_pos hx] at hl
      rcases List.mem_cons.mp hl with h | h
      · subst h; cases hc
      · exact ih l h c hc
    · rw [if_neg hx] at hl
      obtain ⟨hd, tl, heq⟩ : ∃ hd tl, xs.splitOnP p = hd :: tl := by
        cases h : xs.splitOnP p with
        | nil => exact absurd h (List.splitOnP_ne_nil p xs)
        | cons a b => exact ⟨a, b, rfl⟩
      rw [heq, List.modifyHead_cons] at hl
      rcases List.mem_cons.mp hl with h | h
      · subst h
        rcases List.mem_cons.mp hc with h | h
        · subst h; exact hx
        · exact ih hd (heq ▸ List.mem_cons_self hd tl) c h
      · exact ih l (heq ▸ List.mem_cons_of_mem hd h) c hc

theorem intercalate_single {α : Type} (x : α) (a : List α) :
    List.intercalate [x] [a] = a := by
  simp [List.intercalate]

theorem intercalate_cons₂ {α : Type} (x : α) (a b : List α)
    (u : List (List α)) :
    List.intercalate [x] (a :: b :: u) = a ++ x :: List.intercalate [x] (b :: u) := by
  simp [List.intercalate, List.intersperse_cons_cons]

theorem mem_intercalate_cases {α : Type} (x c : α) :
    ∀ (ls : List (List α)), c ∈ List.intercalate [x] ls →
      c = x ∨ ∃ l ∈ ls, c ∈ l := by
  intro ls
  induction ls with
  | nil => intro h; simp [List.intercalate] at h
  | cons a t ih =>
    intro h
    cases t with
    | nil =>
      rw [intercalate_single] at h
      exact Or.inr ⟨a, List.mem_cons_self a [], h⟩
    | cons b u =>
      rw [intercalate_cons₂] at h
      rcases List.mem_append.mp h with h | h
      · exact Or.inr ⟨a, List.mem_cons_self a _, h⟩
      · rcases List.mem_cons.mp h with h | h
        · exact Or.inl h
        · rcases ih h with h | ⟨l, hl, hcl⟩
          · exact Or.inl h
          · exact Or.inr ⟨l, List.mem_cons_of_mem a hl, hcl⟩

/-! ### Claim theorems -/

/-- Claim C1 — evaluation of the code at the claim's input.  The name deriver
strips only the final `".ts"` (Node `extname`), so the entrypoint
`"src/hello-world.lambda.ts"` yields the bundle identifier
`"hello-world.lambda"` — not `"hello-world"` — and the default output file
`"assets/hello-world.lambda/index.mjs"` — not `"assets/hello-world/index.mjs"`
as the claim (and the repository's own README) state. -/
theorem c1_bundle_name_actual :
    renderBundleName "src/hello-world.lambda.ts" = "hello-world.lambda" ∧
    (addBundle none "assets" "src/hello-world.lambda.ts" {}).outfile
      = "assets/hello-world.lambda/index.mjs" ∧
    renderBundleName "src/hello-world.lambda.ts" ≠ "hello-world" ∧
    (addBundle none "assets" "src/hello-world.lambda.ts" {}).outfile
      ≠ "assets/hello-world/index.mjs" := by
  refine ⟨rfl, rfl, ?_, ?_⟩ <;> decide

/-- Claim C2 — counterexample to the claim as stated: with `sourcemap=false`
(and `sourcesContent` left at its default `false`), the assembled command
contains no sources-content token at all. -/
theorem c2_counterexample :
    ¬ ∃ a ∈ (addBundle none "assets" "src/hello-world.lambda.ts"
        { sourcemap := some false }).args,
      ("--sources-content".toList).isPrefixOf a.toList = true := by
  decide

/-- Claim C2, amended: the sources-content token is appended only when the
resolved `sourcesContent` is `true` (then reading `--sources-content=true`);
when it resolves to `false` the token is omitted, symmetrically with the
sourcemap token. -/
theorem c2_sources_content_only_when_true
    (cl : Option (List (String × String))) (bd ep : String)
    (opts : BundlingOptions) :
    (opts.sourcesContent.getD false = true →
      "--sources-content=true" ∈ (addBundle cl bd ep opts).args) ∧
    (opts.sourcesContent.getD false = false →
      (addBundle cl bd ep opts).args
        = baseArgs ep (opts.target.getD "esnext") (opts.platform.getD "node")
            (addBundle cl bd ep opts).outfile
          ++ tsconfigArgs opts.tsconfigPath
          ++ externalArgs (opts.externals.getD [])
          ++ sourcemapArgs (opts.sourcemap.getD true)
          ++ minifyArgs (opts.minify.getD true)
          ++ formatArgs (opts.format.getD "esm")
          ++ mainFieldsArgs (opts.mainFields.getD "module,main")
          ++ bannerArgs (opts.banner.getD defaultBanner)
          ++ loaderArgs (opts.loaders <|> cl)) := by
  constructor
  · intro h
    have hm : "--sources-content=true"
        ∈ sourcesContentArgs (opts.sourcesContent.getD false) := by
      rw [h]; decide
    rw [addBundle_args_eq]
    exact List.mem_append_left _ (List.mem_append_left _
      (List.mem_append_left _ (List.mem_append_left _
        (List.mem_append_left _ (List.mem_append_right _ hm)))))
  · intro h
    rw [addBundle_args_eq, h]
    simp [sourcesContentArgs]

/-- Witness for `c2_sources_content_only_when_true` at a concrete input. -/
theorem c2_witness :
    "--sources-content=true" ∈ (addBundle none "assets" "src/a.lambda.ts"
      { sourcesContent := some true }).args :=
  (c2_sources_content_only_when_true none "assets" "src/a.lambda.ts"
    { sourcesContent := some true }).1 (by decide)

/-- Claim C3 — counterexample to the claim as stated: the all-default
invocation contains no sources-content token (neither
`--sources-content=false` nor any other). -/
theorem c3_counterexample :
    "--sources-content=false"
        ∉ (addBundle none "assets" "src/hello-world.lambda.ts" {}).args ∧
    ¬ ∃ a ∈ (addBundle none "assets" "src/hello-world.lambda.ts" {}).args,
      ("--sources-content".toList).isPrefixOf a.toList = true := by
  constructor <;> decide

/-- Claim C3, amended: for every entrypoint, `addBundle` with the all-default
(empty) configuration and no component loaders produces exactly the bundle
flag, the entrypoint, quoted target `esnext`, quoted platform `node`, the
quoted outfile, the sourcemap flag, the minify flag, format `esm`,
main-fields `module,main` and the fixed banner token — with no tsconfig,
external, loader, or sources-content tokens. -/
theorem c3_default_args (ep : String) :
    (addBundle none "assets" ep {}).args
      = ["esbuild", "--bundle", ep, "--target=\"esnext\"",
         "--platform=\"node\"",
         "--outfile=\"" ++ (addBundle none "assets" ep {}).outfile ++ "\"",
         "--sourcemap", "--minify", "--format=esm",
         "--main-fields=module,main", "--banner" ++ defaultBanner] := rfl

/-- Claim C4: an invocation-level loader map completely replaces the
component-level map (the component map is then irrelevant to the produced
command), and in the claim's concrete scenario — invocation `{json: text}`
over component default `{json: base64}` — the only loader token is
`--loader:.json=text`. -/
theorem c4_loader_override :
    (∀ (cl : Option (List (String × String))) (bd ep : String)
        (opts : BundlingOptions) (ls : List (String × String)),
        opts.loaders = some ls →
        (addBundle cl bd ep opts).args = (addBundle none bd ep opts).args) ∧
    ((addBundle (some [("json", "base64")]) "assets" "src/a.lambda.ts"
          { loaders := some [("json", "text")] }).args.filter
        (fun a => ("--loader".toList).isPrefixOf a.toList)
        = ["--loader:.json=text"] ∧
      "--loader:.json=base64" ∉ (addBundle (some [("json", "base64")])
        "assets" "src/a.lambda.ts"
        { loaders := some [("json", "text")] }).args) := by
  refine ⟨?_, by decide, by decide⟩
  intro cl bd ep opts ls h
  rw [addBundle_args_eq, addBundle_args_eq, h]
  rfl

/-- Witness for `c4_loader_override` at a concrete input. -/
theorem c4_witness :
    (addBundle (some [("json", "base64")]) "b" "e"
        { loaders := some [("json", "text")] }).args
      = (addBundle none "b" "e" { loaders := some [("json", "text")] }).args :=
  c4_loader_override.1 (some [("json", "base64")]) "b" "e"
    { loaders := some [("json", "text")] } [("json", "text")] rfl

/-- Claim C7: when the platform's native separator differs from `'/'`, the
output of `convertToPosixPath` contains no occurrence of that separator. -/
theorem c7_no_native_sep (sep : Char) (h : sep ≠ '/') (p : String) :
    sep ∉ (convertToPosixPath sep p).toList := by
  intro hmem
  have hmem' : sep ∈ List.intercalate ['/'] (p.toList.splitOn sep) := hmem
  rcases mem_intercalate_cases '/' sep _ hmem' with h1 | ⟨l, hl, hcl⟩
  · exact h h1
  · have hno := splitOnP_forall_not (fun c => c == sep) p.toList l hl sep hcl
    simp at hno

/-- Witness for `c7_no_native_sep` at the Windows separator. -/
theorem c7_witness :
    '\\' ≠ '/' ∧ '\\' ∉ (convertToPosixPath '\\' "a\\b").toList :=
  ⟨by decide, c7_no_native_sep '\\' (by decide) "a\\b"⟩

/-- Claim C8: the `LambdaFunctionCodeBundle` constructor fails exactly when
no `Bundler` component is registered, the entrypoint does not end with the
configured extension, or the (possibly defaulted) construct file name does
not carry a `".ts"` extension; in every other configuration — in particular
whatever bundling-configuration fields are omitted — it succeeds. -/
theorem c8_error_conditions (bp : Bool)
    (cl : Option (List (String × String))) (bd : String)
    (tsd : Option String) (opts : CodeBundleOptions) :
    (lambdaFunctionCodeBundle bp cl bd tsd opts).isOk = false ↔
      (bp = false ∨ jsEndsWith opts.entrypoint opts.extension = false ∨
        extnameStr (resolvedConstructFile opts) ≠ ".ts") := by
  cases bp with
  | false => simp [lambdaFunctionCodeBundle, Except.isOk, Except.toBool]
  | true =>
    cases hend : jsEndsWith opts.entrypoint opts.extension with
    | false =>
      simp [lambdaFunctionCodeBundle, hend, Except.isOk, Except.toBool]
    | true =>
      by_cases h2 : extnameStr (resolvedConstructFile opts) = ".ts"
      · simp [lambdaFunctionCodeBundle, hend, h2, Except.isOk, Except.toBool]
      · simp [lambdaFunctionCodeBundle, hend, h2, Except.isOk, Except.toBool]

/-- Claim C9: when no `constructName` override is supplied the generated
identifier is the PascalCase conversion of the last path segment of the
derived base path followed by `"FunctionCode"`, and a supplied override is
used verbatim (`Option.getD` semantics); concretely, base name
`"hello-world"` yields `"HelloWorldFunctionCode"`. -/
theorem c9_construct_name (cl : Option (List (String × String)))
    (bd : String) (tsd : Option String) (opts : CodeBundleOptions)
    (h1 : jsEndsWith opts.entrypoint opts.extension = true)
    (h2 : extnameStr (resolvedConstructFile opts) = ".ts") :
    (lambdaFunctionCodeBundle true cl bd tsd opts).map
        CodeBundleResult.constructName
      = Except.ok (opts.constructName.getD
          (pascal (basenameStr (derivedBasePath opts.entrypoint
            opts.extension)) ++ "FunctionCode")) ∧
    pascal "hello-world" ++ "FunctionCode" = "HelloWorldFunctionCode" := by
  refine ⟨?_, by decide⟩
  simp [lambdaFunctionCodeBundle, h1, h2, Except.map]

/-- Witness for `c9_construct_name` at a concrete input. -/
theorem c9_witness :
    (lambdaFunctionCodeBundle true none "assets" none
        { entrypoint := "src/hello-world.lambda.ts",
          extension := ".lambda.ts" }).map CodeBundleResult.constructName
      = Except.ok "HelloWorldFunctionCode" :=
  ((c9_construct_name none "assets" none
    { entrypoint := "src/hello-world.lambda.ts", extension := ".lambda.ts" }
    (by decide) (by decide)).1).trans rfl

/-- Claim C10: explicitly supplying the empty string for `format`,
`mainFields` or `banner` suppresses the corresponding token entirely — the
built-in defaults replace only `undefined` fields and the truthiness guards
then drop the empty strings, so the produced command has no format,
main-fields or banner token. -/
theorem c10_empty_string_omits (cl : Option (List (String × String)))
    (bd ep : String) (opts : BundlingOptions) :
    (addBundle cl bd ep
        { opts with
            format := some "",
            mainFields := some "",
            banner := some "" }).args
      = baseArgs ep (opts.target.getD "esnext") (opts.platform.getD "node")
          ((addBundle cl bd ep
            { opts with
                format := some "",
                mainFields := some "",
                banner := some "" }).outfile)
        ++ tsconfigArgs opts.tsconfigPath
        ++ externalArgs (opts.externals.getD [])
        ++ sourcemapArgs (opts.sourcemap.getD true)
        ++ sourcesContentArgs (opts.sourcesContent.getD false)
        ++ minifyArgs (opts.minify.getD true)
        ++ loaderArgs (opts.loaders <|> cl) := by
  rw [addBundle_args_eq]
  simp [formatArgs, mainFieldsArgs, bannerArgs]

/-! ### Clean-path lemmas for the name deriver -/

theorem mem_of_getLast?_eq {α : Type} {l : List α} {a : α}
    (h : l.getLast? = some a) : a ∈ l := by
  have h' : l.reverse.head? = some a := by rw [List.head?_reverse]; exact h
  cases hrev : l.reverse with
  | nil => rw [hrev] at h'; cases h'
  | cons c w =>
    rw [hrev, List.head?_cons] at h'
    have hc : c = a := Option.some.inj h'
    subst hc
    exact List.mem_reverse.mp (by rw [hrev]; exact List.mem_cons_self c w)

theorem dropWhile_append_all {α : Type} (p : α → Bool) (a b : List α)
    (h : ∀ x ∈ a, p x = true) :
    (a ++ b).dropWhile p = b.dropWhile p := by
  induction a with
  | nil => rfl
  | cons x xs ih =>
    rw [List.cons_append, List.dropWhile_cons,
      if_pos (h x (List.mem_cons_self x xs))]
    exact ih (fun y hy => h y (List.mem_cons_of_mem x hy))

theorem takeWhile_append_stop {α : Type} (p : α → Bool) (a : List α) (y : α)
    (b : List α) (h : ∀ x ∈ a, p x = true) (hy : p y = false) :
    (a ++ y :: b).takeWhile p = a := by
  induction a with
  | nil => rw [List.nil_append, List.takeWhile_cons, hy]; simp
  | cons x xs ih =>
    rw [List.cons_append, List.takeWhile_cons, h x (List.mem_cons_self x xs)]
    rw [ih (fun z hz => h z (List.mem_cons_of_mem x hz))]
    simp

theorem intercalate_concat {α : Type} (x : α) (init : List (List α))
    (last : List α) (hinit : init ≠ []) :
    List.intercalate [x] (init ++ [last])
      = List.intercalate [x] init ++ x :: last := by
  induction init with
  | nil => exact absurd rfl hinit
  | cons a t ih =>
    cases t with
    | nil =>
      rw [show ([a] ++ [last] : List (List α)) = [a, last] from rfl]
      rw [intercalate_cons₂, intercalate_single, intercalate_single]
    | cons b u =>
      rw [show ((a :: b :: u) ++ [last] : List (List α))
          = a :: b :: (u ++ [last]) from rfl]
      rw [intercalate_cons₂]
      rw [show (b :: (u ++ [last]) : List (List α))
          = (b :: u) ++ [last] from rfl]
      rw [ih (by simp), intercalate_cons₂]
      simp [List.append_assoc]

theorem intercalate_clean_ne_nil (ss : List (List Char))
    (h : ∀ s ∈ ss, s ≠ []) (hne : ss ≠ []) :
    List.intercalate ['/'] ss ≠ [] := by
  cases ss with
  | nil => exact absurd rfl hne
  | cons a t =>
    cases t with
    | nil => rw [intercalate_single]; exact h a (List.mem_cons_self a [])
    | cons b u =>
      rw [intercalate_cons₂]
      exact List.append_ne_nil_of_left_ne_nil
        (h a (List.mem_cons_self a _)) _

theorem head?_intercalate_cons (a : List Char) (t : List (List Char))
    (ha : a ≠ []) :
    (List.intercalate ['/'] (a :: t)).head? = a.head? := by
  cases t with
  | nil => rw [intercalate_single]
  | cons b u =>
    rw [intercalate_cons₂]
    exact List.head?_append_of_ne_nil a ha

theorem head?_intercalate_ne_slash (ss : List (List Char))
    (h : ∀ s ∈ ss, CleanSeg s) (hne : ss ≠ []) :
    (List.intercalate ['/'] ss).head? ≠ some '/' := by
  obtain ⟨a, t, rfl⟩ : ∃ a t, ss = a :: t := by
    cases ss with
    | nil => exact absurd rfl hne
    | cons a t => exact ⟨a, t, rfl⟩
  have ha := h a (List.mem_cons_self a t)
  obtain ⟨c0, w, rfl⟩ : ∃ c0 w, a = c0 :: w := by
    cases ha' : a with
    | nil => exact absurd ha' ha.1
    | cons c0 w => exact ⟨c0, w, rfl⟩
  rw [head?_intercalate_cons _ _ (by simp), List.head?_cons]
  intro hc
  have he : c0 = '/' := Option.some.inj hc
  apply ha.2.2.2
  rw [← he]
  exact List.mem_cons_self c0 w

theorem getLast?_intercalate_ne_slash (ss : List (List Char))
    (h : ∀ s ∈ ss, s ≠ [] ∧ '/' ∉ s) (hne : ss ≠ []) :
    (List.intercalate ['/'] ss).getLast? ≠ some '/' := by
  induction ss with
  | nil => exact absurd rfl hne
  | cons a t ih =>
    cases t with
    | nil =>
      rw [intercalate_single]
      intro hc
      exact (h a (List.mem_cons_self a [])).2 (mem_of_getLast?_eq hc)
    | cons b u =>
      have hbu : ∀ s ∈ (b :: u), s ≠ [] ∧ '/' ∉ s :=
        fun s hs => h s (List.mem_cons_of_mem a hs)
      have hne2 : List.intercalate ['/'] (b :: u) ≠ [] :=
        intercalate_clean_ne_nil _ (fun s hs => (hbu s hs).1) (by simp)
      obtain ⟨y, ys, heq⟩ : ∃ y ys,
          List.intercalate ['/'] (b :: u) = y :: ys := by
        cases hI : List.intercalate ['/'] (b :: u) with
        | nil => exact absurd hI hne2
        | cons y ys => exact ⟨y, ys, rfl⟩
      rw [intercalate_cons₂, List.getLast?_append, heq,
        List.getLast?_cons_cons]
      have ihr := ih hbu (by simp)
      rw [heq] at ihr
      cases hg : (y :: ys).getLast? with
      | none => exact absurd (List.getLast?_eq_none_iff.mp hg) (by simp)
      | some c =>
        rw [Option.or_some]
        intro hcc
        rw [hg] at ihr
        exact ihr hcc

theorem foldl_normStep_clean (allowUp : Bool) (ss : List (List Char)) :
    ∀ acc, (∀ s ∈ ss, CleanSeg s) →
      ss.foldl (normStep allowUp) acc = ss.reverse ++ acc := by
  induction ss with
  | nil => intro acc _; simp
  | cons a t ih =>
    intro acc h
    have ha := h a (List.mem_cons_self a t)
    have hstep : normStep allowUp acc a = a :: acc := by
      simp only [normStep]
      rw [if_neg (not_or.mpr ⟨ha.1, ha.2.1⟩), if_neg ha.2.2.1]
    rw [List.foldl_cons, hstep,
      ih (a :: acc) (fun s hs => h s (List.mem_cons_of_mem a hs))]
    simp

theorem normalizeSegs_clean (allowUp : Bool) (ss : List (List Char))
    (h : ∀ s ∈ ss, CleanSeg s) :
    normalizeSegs allowUp ss = ss := by
  rw [normalizeSegs, foldl_normStep_clean allowUp ss [] h]
  simp

theorem isAbsChars_clean (ss : List (List Char))
    (h : ∀ s ∈ ss, CleanSeg s) (hne : ss ≠ []) :
    isAbsChars (List.intercalate ['/'] ss) = false := by
  simp only [isAbsChars]
  rw [beq_eq_false_iff_ne]
  exact head?_intercalate_ne_slash ss h hne

theorem hasTrailingSlash_clean (ss : List (List Char))
    (h : ∀ s ∈ ss, CleanSeg s) (hne : ss ≠ []) :
    hasTrailingSlash (List.intercalate ['/'] ss) = false := by
  simp only [hasTrailingSlash]
  rw [beq_eq_false_iff_ne]
  exact getLast?_intercalate_ne_slash ss
    (fun s hs => ⟨(h s hs).1, (h s hs).2.2.2⟩) hne

theorem splitOn_intercalate_clean (ss : List (List Char))
    (h : ∀ s ∈ ss, CleanSeg s) (hne : ss ≠ []) :
    (List.intercalate ['/'] ss).splitOn '/' = ss :=
  List.splitOn_intercalate ss '/' (fun l hl => (h l hl).2.2.2) hne

theorem normalizeChars_clean (ss : List (List Char))
    (h : ∀ s ∈ ss, CleanSeg s) (hne : ss ≠ []) :
    normalizeChars (List.intercalate ['/'] ss)
      = List.intercalate ['/'] ss := by
  have hcs : List.intercalate ['/'] ss ≠ [] :=
    intercalate_clean_ne_nil ss (fun s hs => (h s hs).1) hne
  simp only [normalizeChars]
  rw [if_neg hcs, splitOn_intercalate_clean ss h hne,
    isAbsChars_clean ss h hne, hasTrailingSlash_clean ss h hne,
    normalizeSegs_clean _ ss h]
  simp [joinSegsChar, hcs]

theorem joinChars1_clean (ss : List (List Char))
    (h : ∀ s ∈ ss, CleanSeg s) (hne : ss ≠ []) :
    joinChars1 (List.intercalate ['/'] ss) = List.intercalate ['/'] ss := by
  simp only [joinChars1]
  rw [if_neg (intercalate_clean_ne_nil ss (fun s hs => (h s hs).1) hne)]
  exact normalizeChars_clean ss h hne

theorem dropWhile_slash_keep (a rest : List Char) (ha_ne : a ≠ [])
    (ha_no : '/' ∉ a) :
    (a.reverse ++ rest).dropWhile (fun x => x == '/') = a.reverse ++ rest := by
  obtain ⟨d, v, hdv⟩ : ∃ d v, a.reverse = d :: v := by
    cases hr : a.reverse with
    | nil => exact absurd (by simpa using hr) ha_ne
    | cons d v => exact ⟨d, v, rfl⟩
  have hd : (d == '/') = false := by
    rw [beq_eq_false_iff_ne]
    intro he
    apply ha_no
    apply List.mem_reverse.mp
    rw [hdv, ← he]
    exact List.mem_cons_self d v
  rw [hdv, List.cons_append, List.dropWhile_cons]
  simp [hd]

theorem dropWhile_slash_keep_nil (a : List Char) (ha_ne : a ≠ [])
    (ha_no : '/' ∉ a) :
    a.reverse.dropWhile (fun x => x == '/') = a.reverse := by
  have h := dropWhile_slash_keep a [] ha_ne ha_no
  simpa using h

theorem takeWhile_not_slash_all (l : List Char) (h : '/' ∉ l) :
    l.takeWhile (fun x => !(x == '/')) = l := by
  rw [List.takeWhile_eq_self_iff]
  intro x hx
  have hb : (x == '/') = false :=
    beq_eq_false_iff_ne.mpr (fun he => h (he ▸ hx))
  simp [hb]

theorem takeWhile_not_slash_stop (a rest : List Char) (ha : '/' ∉ a) :
    (a.reverse ++ '/' :: rest).takeWhile (fun x => !(x == '/'))
      = a.reverse := by
  apply takeWhile_append_stop
  · intro x hx
    have hb : (x == '/') = false :=
      beq_eq_false_iff_ne.mpr (fun he => ha (he ▸ List.mem_reverse.mp hx))
    simp [hb]
  · simp

theorem dropWhile_not_slash_nil (l : List Char) (h : '/' ∉ l) :
    l.dropWhile (fun x => !(x == '/')) = [] := by
  rw [List.dropWhile_eq_nil_iff]
  intro x hx
  have hb : (x == '/') = false :=
    beq_eq_false_iff_ne.mpr (fun he => h (he ▸ hx))
  simp [hb]

theorem dropWhile_not_slash_stop (a rest : List Char) (ha : '/' ∉ a) :
    (a.reverse ++ '/' :: rest).dropWhile (fun x => !(x == '/'))
      = '/' :: rest := by
  rw [dropWhile_append_all _ a.reverse _ (fun x hx => by
    have hb : (x == '/') = false :=
      beq_eq_false_iff_ne.mpr (fun he => ha (he ▸ List.mem_reverse.mp hx))
    simp [hb])]
  rw [List.dropWhile_cons]
  simp

theorem reverse_append_slash (u last : List Char) :
    (u ++ '/' :: last).reverse = last.reverse ++ '/' :: u.reverse := by
  rw [List.reverse_append, List.reverse_cons, List.append_assoc]
  rfl

theorem dirnameChars_single (s : List Char) (hs : CleanSeg s) :
    dirnameChars s = ['.'] := by
  simp only [dirnameChars]
  rw [if_neg hs.1, dropWhile_slash_keep_nil s hs.1 hs.2.2.2,
    dropWhile_not_slash_nil s.reverse (by simpa using hs.2.2.2)]
  have hh : ¬(s.head? = some '/') := by
    obtain ⟨c0, w, rfl⟩ : ∃ c0 w, s = c0 :: w := by
      cases hs' : s with
      | nil => exact absurd hs' hs.1
      | cons c0 w => exact ⟨c0, w, rfl⟩
    rw [List.head?_cons]
    intro hc
    have he : c0 = '/' := Option.some.inj hc
    apply hs.2.2.2
    rw [← he]
    exact List.mem_cons_self c0 w
  simp [hh]

theorem dirnameChars_concat (u last : List Char) (hu_ne : u ≠ [])
    (hu_head : ¬(u.head? = some '/')) (hl_ne : last ≠ [])
    (hl_no : '/' ∉ last) :
    dirnameChars (u ++ '/' :: last) = u := by
  have hne : u ++ '/' :: last ≠ [] :=
    List.append_ne_nil_of_left_ne_nil hu_ne _
  simp only [dirnameChars]
  rw [if_neg hne, reverse_append_slash,
    dropWhile_slash_keep last ('/' :: u.reverse) hl_ne hl_no,
    dropWhile_not_slash_stop last u.reverse hl_no]
  have hpos : 0 < u.reverse.length :=
    List.length_pos.mpr (by simpa using hu_ne)
  have hlen1 : ¬(('/' :: u.reverse).length ≤ 1) := by
    simp only [List.length_cons]
    omega
  rw [if_neg hlen1]
  have hroot : ¬((u ++ '/' :: last).head? = some '/') := by
    rw [List.head?_append_of_ne_nil u hu_ne]
    exact hu_head
  rw [if_neg (fun hand => hroot hand.1)]
  simp

theorem basenameChars_single (s : List Char) (hs : CleanSeg s) :
    basenameChars s = s := by
  simp only [basenameChars]
  rw [dropWhile_slash_keep_nil s hs.1 hs.2.2.2,
    takeWhile_not_slash_all s.reverse (by simpa using hs.2.2.2),
    List.reverse_reverse]

theorem basenameChars_concat (u last : List Char) (hl_ne : last ≠ [])
    (hl_no : '/' ∉ last) :
    basenameChars (u ++ '/' :: last) = last := by
  simp only [basenameChars]
  rw [reverse_append_slash,
    dropWhile_slash_keep last ('/' :: u.reverse) hl_ne hl_no,
    takeWhile_not_slash_stop last u.reverse hl_no, List.reverse_reverse]

theorem basenameExtChars_nil (cs : List Char) :
    basenameExtChars cs [] = basenameChars cs := by
  simp only [basenameExtChars]
  rw [if_neg]
  intro hand
  exact hand.1 rfl

theorem normalize_dot_slash (s : List Char) (hs : CleanSeg s) :
    normalizeChars ('.' :: '/' :: s) = s := by
  simp only [normalizeChars]
  rw [if_neg (by simp)]
  have hsplit : ('.' :: '/' :: s).splitOn '/' = [['.'], s] := by
    show ('.' :: '/' :: s).splitOnP (fun c => c == '/') = [['.'], s]
    rw [List.splitOnP_cons, if_neg (by decide), List.splitOnP_cons,
      if_pos (by decide),
      List.splitOnP_eq_single _ _ (fun x hx => by
        have hb : (x == '/') = false :=
          beq_eq_false_iff_ne.mpr (fun he => hs.2.2.2 (he ▸ hx))
        simp [hb])]
    simp [List.modifyHead_cons]
  rw [hsplit]
  have hsegs : ∀ b : Bool, normalizeSegs b [['.'], s] = [s] := by
    intro b
    simp only [normalizeSegs, List.foldl_cons, List.foldl_nil]
    rw [show normStep b [] ['.'] = [] from rfl]
    rw [show normStep b [] s = [s] from by
      simp only [normStep]
      rw [if_neg (not_or.mpr ⟨hs.1, hs.2.1⟩), if_neg hs.2.2.1]]
    simp
  rw [hsegs]
  rw [show joinSegsChar [s] = s from intercalate_single '/' s]
  rw [if_neg hs.1]
  have habs : isAbsChars ('.' :: '/' :: s) = false := rfl
  have htr : hasTrailingSlash ('.' :: '/' :: s) = false := by
    simp only [hasTrailingSlash]
    rw [beq_eq_false_iff_ne]
    intro hg
    obtain ⟨y, ys, rfl⟩ : ∃ y ys, s = y :: ys := by
      cases hs' : s with
      | nil => exact absurd hs' hs.1
      | cons y ys => exact ⟨y, ys, rfl⟩
    rw [List.getLast?_cons_cons, List.getLast?_cons_cons] at hg
    exact hs.2.2.2 (mem_of_getLast?_eq hg)
  rw [habs, htr]
  simp

theorem joinChars2_dot (s : List Char) (hs : CleanSeg s) :
    joinChars2 ['.'] s = s := by
  simp only [joinChars2]
  rw [if_neg (fun hand => hs.1 hand.2), if_neg (by simp), if_neg hs.1]
  exact normalize_dot_slash s hs

theorem joinChars2_of_ne (u b : List Char) (hu : u ≠ []) (hb : b ≠ []) :
    joinChars2 u b = normalizeChars (u ++ '/' :: b) := by
  simp only [joinChars2]
  rw [if_neg (fun hand => hu hand.1), if_neg hu, if_neg hb]

theorem renderBundleCore_clean (ss : List (List Char))
    (h : ∀ s ∈ ss, CleanSeg s) (hne : ss ≠ [])
    (hext : extnameChars (List.intercalate ['/'] ss) = []) :
    renderBundleCore (List.intercalate ['/'] ss)
      = List.intercalate ['/'] ss := by
  rcases List.eq_nil_or_concat ss with hnil | ⟨init, last, hcc⟩
  · exact absurd hnil hne
  · rw [List.concat_eq_append] at hcc
    subst hcc
    have hlast : CleanSeg last := h last (by simp)
    by_cases hi : init = []
    · subst hi
      rw [List.nil_append] at h hext ⊢
      rw [intercalate_single] at hext ⊢
      simp only [renderBundleCore]
      rw [hext, basenameExtChars_nil, dirnameChars_single last hlast,
        basenameChars_single last hlast]
      exact joinChars2_dot last hlast
    · have hic : List.intercalate ['/'] (init ++ [last])
          = List.intercalate ['/'] init ++ '/' :: last :=
        intercalate_concat '/' init last hi
      have hinit_clean : ∀ s ∈ init, CleanSeg s :=
        fun s hs => h s (by simp [hs])
      have hu_ne : List.intercalate ['/'] init ≠ [] :=
        intercalate_clean_ne_nil init (fun s hs => (hinit_clean s hs).1) hi
      have hu_head : ¬((List.intercalate ['/'] init).head? = some '/') :=
        head?_intercalate_ne_slash init hinit_clean hi
      rw [hic] at hext ⊢
      simp only [renderBundleCore]
      rw [hext, basenameExtChars_nil,
        dirnameChars_concat (List.intercalate ['/'] init) last hu_ne hu_head
          hlast.1 hlast.2.2.2,
        basenameChars_concat (List.intercalate ['/'] init) last hlast.1
          hlast.2.2.2,
        joinChars2_of_ne _ last hu_ne hlast.1, ← hic]
      exact normalizeChars_clean (init ++ [last]) h (by simp)

theorem renderBundleParts_clean (ss : List (List Char))
    (h : ∀ s ∈ ss, CleanSeg s) (hne : ss ≠ [])
    (hhead : ss.head? ≠ some "src".toList) :
    renderBundleParts ⟨List.intercalate ['/'] ss⟩ = ss := by
  simp only [renderBundleParts]
  rw [show (⟨List.intercalate ['/'] ss⟩ : String).toList
      = List.intercalate ['/'] ss from rfl]
  rw [joinChars1_clean ss h hne, splitOn_intercalate_clean ss h hne,
    if_neg hhead]

theorem renderBundleParts_src (ss : List (List Char))
    (h : ∀ s ∈ ss, CleanSeg s) (hne : ss ≠ []) :
    renderBundleParts ⟨List.intercalate ['/'] ("src".toList :: ss)⟩ = ss := by
  have hall : ∀ s ∈ ("src".toList :: ss), CleanSeg s := by
    intro s hs
    rcases List.mem_cons.mp hs with rfl | hs
    · decide
    · exact h s hs
  simp only [renderBundleParts]
  rw [show (⟨List.intercalate ['/'] ("src".toList :: ss)⟩ : String).toList
      = List.intercalate ['/'] ("src".toList :: ss) from rfl]
  rw [joinChars1_clean _ hall (by simp),
    splitOn_intercalate_clean _ hall (by simp),
    if_pos (by rw [List.head?_cons])]
  rfl

/-- Claim C5 — counterexample to the claim as stated: for `rest =
"src/foo.ts"` (whose own first segment is again `"src"`), prefixing `"src/"`
changes the derived bundle name (`"src/foo"` versus `"foo"`), because the
deriver strips only one leading `"src"` segment. -/
theorem c5_counterexample :
    renderBundleName ("src/" ++ "src/foo.ts") ≠ renderBundleName "src/foo.ts" := by
  decide

/-- Claim C5, amended: for every entrypoint written as a nonempty sequence of
plain path segments (each nonempty, not `"."` or `".."`, containing no
separator) whose first segment is not `"src"`, prefixing the conventional
source-root segment leaves the derived bundle name unchanged, at any depth. -/
theorem c5_src_prefix_invariance (ss : List (List Char))
    (h : ∀ s ∈ ss, CleanSeg s) (hne : ss ≠ [])
    (hhead : ss.head? ≠ some "src".toList) :
    renderBundleName ("src/" ++ ⟨List.intercalate ['/'] ss⟩)
      = renderBundleName ⟨List.intercalate ['/'] ss⟩ := by
  have hstr : ("src/" ++ (⟨List.intercalate ['/'] ss⟩ : String))
      = ⟨List.intercalate ['/'] ("src".toList :: ss)⟩ := by
    apply String.ext
    rw [String.data_append]
    obtain ⟨b, t, rfl⟩ : ∃ b t, ss = b :: t := by
      cases hs' : ss with
      | nil => exact absurd hs' hne
      | cons b t => exact ⟨b, t, rfl⟩
    rw [intercalate_cons₂]
    rfl
  rw [hstr]
  simp only [renderBundleName]
  rw [renderBundleParts_src ss h hne, renderBundleParts_clean ss h hne hhead]

/-- Witness for `c5_src_prefix_invariance` at the single segment `"foo.ts"`. -/
theorem c5_witness :
    renderBundleName
        ("src/" ++ ⟨List.intercalate ['/'] [['f', 'o', 'o', '.', 't', 's']]⟩)
      = renderBundleName ⟨List.intercalate ['/'] [['f', 'o', 'o', '.', 't', 's']]⟩ :=
  c5_src_prefix_invariance [['f', 'o', 'o', '.', 't', 's']]
    (by decide) (by decide) (by decide)

/-- Claim C6 — counterexample to the claim as stated: the derived name of
`"src/src/foo.ts"` is `"src/foo"`, which carries no extension, yet applying
the deriver again strips the leading `"src"` and yields `"foo"`. -/
theorem c6_counterexample :
    extnameStr (renderBundleName "src/src/foo.ts") = "" ∧
    renderBundleName (renderBundleName "src/src/foo.ts")
      ≠ renderBundleName "src/src/foo.ts" := by
  constructor <;> decide

/-- Claim C6, amended: `renderBundleName` is idempotent on every entrypoint
whose derived bundle name is a plain relative path (nonempty `/`-separated
segments, none empty, `"."` or `".."`) whose first segment is not `"src"`
and which carries no extension. -/
theorem c6_idempotent_on_derived (p : String) (ss : List (List Char))
    (hrep : (renderBundleName p).toList = List.intercalate ['/'] ss)
    (h : ∀ s ∈ ss, CleanSeg s) (hne : ss ≠ [])
    (hhead : ss.head? ≠ some "src".toList)
    (hext : extnameChars (renderBundleName p).toList = []) :
    renderBundleName (renderBundleName p) = renderBundleName p := by
  have hs : renderBundleName p = ⟨List.intercalate ['/'] ss⟩ :=
    String.ext hrep
  rw [hs] at hext ⊢
  have hext' : extnameChars (List.intercalate ['/'] ss) = [] := hext
  simp only [renderBundleName]
  rw [renderBundleParts_clean ss h hne hhead,
    show joinSegsChar ss = List.intercalate ['/'] ss from rfl,
    renderBundleCore_clean ss h hne hext']

/-- Witness for `c6_idempotent_on_derived` at `"src/foo.ts"` (derived name
`"foo"`). -/
theorem c6_witness :
    renderBundleName (renderBundleName "src/foo.ts")
      = renderBundleName "src/foo.ts" :=
  c6_idempotent_on_derived "src/foo.ts" [['f', 'o', 'o']]
    (by decide) (by decide) (by decide) (by decide) (by decide)
